import Mathlib

/-!
# Verification of the `BigInt` arbitrary-precision arithmetic component

Shallow embedding of `src/BigInt.cpp`: the class `BigInt` stores a magnitude
as a `vector<char>` of decimal digits, least-significant digit first.  We
model the digit vector as `List Nat` (least-significant first) and translate
each member function of the class into a Lean function that follows the C++
control flow.  `value` is the abstraction function sending a digit list to
the natural number it denotes.
-/

namespace BigInt

/-- The digit vector `vi` of a `BigInt`: decimal digits, least-significant
digit first (index 0 of the C++ `vector<char>` is the head of the list). -/
abbrev Digits := List Nat

/-- Numeric value denoted by a digit list (least-significant first). -/
def value : Digits → Nat
  | [] => 0
  | d :: ds => d + 10 * value ds

/-- Every entry of the vector is an actual decimal digit, as is the case for
every `BigInt` built by the constructors of the class. -/
def DigitsValid (l : Digits) : Prop := ∀ d ∈ l, d < 10

instance (l : Digits) : Decidable (DigitsValid l) := by
  unfold DigitsValid; infer_instance

/-- Canonical form: no superfluous most-significant zero digit.  The value
zero is the empty vector (what `BigInt(int)` produces for 0). -/
def Canonical (l : Digits) : Prop := l.getLast? ≠ some 0

instance (l : Digits) : Decidable (Canonical l) := by
  unfold Canonical; infer_instance

/-- Constructor `BigInt::BigInt(int n)`: repeatedly push `n % 10` and divide
`n` by 10 while `n > 0`.  Zero yields the empty digit vector. -/
def ofNat (n : Nat) : Digits :=
  if n = 0 then [] else n % 10 :: ofNat (n / 10)
termination_by n
decreasing_by exact Nat.div_lt_self (by omega) (by omega)

/-- Constructor `BigInt::BigInt(string s)`: push `s[i] - '0'` for `i` from
the last character down to the first, so the digit vector is the reversed
list of character digit values. -/
def ofString (s : List Char) : Digits :=
  (s.map fun c => c.toNat - 48).reverse

/-- Member `BigInt::print`: emit the digits most-significant first.  Each
digit `d` is printed as `static_cast<int>(d)`, which for an actual decimal
digit is the single character of code `48 + d`. -/
def print (l : Digits) : List Char :=
  l.reverse.map fun d => Char.ofNat (48 + d)

/-- Operator `BigInt::operator==`: `vi == other.vi`, element-wise equality of
the digit vectors. -/
def beq (a b : Digits) : Bool := a == b

/-- The digit-by-digit scan of `BigInt::operator<=` on equal-length vectors:
`for i from size-1 downto 0: if vi[i] != other.vi[i] return vi[i] < other.vi[i]`,
and `true` when no position differs.  The arguments here are the two digit
vectors already reversed into most-significant-first order. -/
def leScan : List Nat → List Nat → Bool
  | a0 :: as, b0 :: bs => if a0 ≠ b0 then decide (a0 < b0) else leScan as bs
  | _, _ => true

/-- Operator `BigInt::operator<=`: vectors of different length compare by
length, equal-length vectors by the most-significant-first digit scan. -/
def le (a b : Digits) : Bool :=
  if a.length ≠ b.length then decide (a.length < b.length)
  else leScan a.reverse b.reverse

/-- The trailing-zero strip loop
`while (!vi.empty() && vi.back() == 0) vi.pop_back()` used by `-`, `*`
and `/` to drop superfluous most-significant zero digits. -/
def stripZeros (l : Digits) : Digits :=
  (l.reverse.dropWhile fun d => d == 0).reverse

/-- The tail of the addition loop of `BigInt::operator+` once both operands
are exhausted: while the carry is non-zero, emit `carry % 10` and keep
`carry / 10`. -/
def carryDigits : Nat → Digits
  | 0 => []
  | c + 1 => (c + 1) % 10 :: carryDigits ((c + 1) / 10)
decreasing_by exact Nat.div_lt_self (by omega) (by omega)

/-- The loop of `BigInt::operator+`: at position `i`,
`sum = carry + (i < size ? vi[i] : 0) + (i < other.size ? other.vi[i] : 0)`,
emit `sum % 10` and carry `sum / 10`; the loop runs while `i < maxSize`
or the carry is non-zero. -/
def addAux : Digits → Digits → Nat → Digits
  | [], [], c => carryDigits c
  | [], b0 :: bs, c => (c + b0) % 10 :: addAux [] bs ((c + b0) / 10)
  | a0 :: as, [], c => (c + a0) % 10 :: addAux as [] ((c + a0) / 10)
  | a0 :: as, b0 :: bs, c => (c + a0 + b0) % 10 :: addAux as bs ((c + a0 + b0) / 10)

/-- Operator `BigInt::operator+`. -/
def add (a b : Digits) : Digits := addAux a b 0

/-- The loop of `BigInt::operator-`: for each position of the left operand,
`sub = vi[i] - borrow - (i < other.size ? other.vi[i] : 0)`; if negative add
10 and set the borrow, else clear it; push the digit. -/
def subAux : Digits → Digits → Nat → Digits
  | [], _, _ => []
  | a0 :: as, b, borrow =>
    if a0 < borrow + b.headD 0 then
      (a0 + 10 - (borrow + b.headD 0)) :: subAux as b.tail 1
    else
      (a0 - (borrow + b.headD 0)) :: subAux as b.tail 0

/-- Operator `BigInt::operator-`: the borrow loop over the left operand's
digits followed by the trailing-zero strip. -/
def sub (a b : Digits) : Digits := stripZeros (subAux a b 0)

/-- The inner loop of `BigInt::operator*` for one digit `ai` of the left
operand: running over the right operand's digits and the result buffer from
position `i` on, `sum = result.vi[i+j] + carry + ai * (j < other.size ?
other.vi[j] : 0)`, store `sum % 10`, carry `sum / 10`; the loop continues
past the right operand while the carry is non-zero, and stops leaving the
rest of the buffer untouched once both are exhausted.  (An empty buffer with
work left would be an out-of-bounds write in the C++; the buffer sizing makes
that unreachable.) -/
def mulInner (ai : Nat) : Digits → Digits → Nat → Digits
  | b0 :: bs, r0 :: rs, c =>
    (r0 + c + ai * b0) % 10 :: mulInner ai bs rs ((r0 + c + ai * b0) / 10)
  | [], r0 :: rs, c =>
    if c = 0 then r0 :: rs
    else (r0 + c) % 10 :: mulInner ai [] rs ((r0 + c) / 10)
  | _, [], _ => []

/-- The outer loop of `BigInt::operator*`: row `i` accumulates digit `a[i]`
times the right operand into the buffer starting at position `i`; positions
below `i` are final and are carried over unchanged. -/
def mulOuter : Digits → Digits → Digits → Digits
  | [], _, buf => buf
  | a0 :: as, b, buf =>
    match mulInner a0 b buf 0 with
    | [] => []
    | r0 :: rs => r0 :: mulOuter as b rs

/-- Operator `BigInt::operator*`: schoolbook multiplication into a zeroed
buffer of size `vi.size() + other.vi.size()`, then the trailing-zero strip. -/
def mul (a b : Digits) : Digits :=
  stripZeros (mulOuter a b (List.replicate (a.length + b.length) 0))

/-- The quotient-digit search of `BigInt::operator/` and `BigInt::operator%`:
binary search with state `x, l, r` (`l = 0`, `r = 10` at entry), keeping in
`x` the largest `m` tried so far with `other * BigInt(m) <= current`.  `l`
never goes below 0 and is kept as a `Nat`; `r` can reach -1 and is an `Int`,
exactly as the C++ `int` variables behave on this loop. -/
def binSearch (other current : Digits) (x l : Nat) (r : Int) : Nat :=
  if (l : Int) ≤ r then
    let m := (((l : Int) + r) / 2).toNat
    if le (mul other (ofNat m)) current then binSearch other current m (m + 1) r
    else binSearch other current x l ((m : Int) - 1)
  else x
termination_by (r + 1 - (l : Int)).toNat
decreasing_by
  · omega
  · omega

/-- The digit loop shared by `BigInt::operator/` and `BigInt::operator%`
(the two loops in the source are textually identical except that only `/`
accumulates quotient digits): for each dividend digit, most-significant
first, prepend it to the running remainder `current` (that is, push it at
the least-significant position), binary-search the quotient digit `x`, and
subtract `other * BigInt(x)`.  Returns the quotient digit vector
(least-significant first, exactly as the repeated `insert(begin, x)` builds
it) together with the final `current`. -/
def divmodLoop (other : Digits) : List Nat → Digits → Digits × Digits
  | [], current => ([], current)
  | d :: ds, current =>
    let cur1 := d :: current
    let x := binSearch other cur1 0 0 10
    let cur2 := sub cur1 (mul other (ofNat x))
    let p := divmodLoop other ds cur2
    (p.1 ++ [x], p.2)

/-- Operator `BigInt::operator/`: throws on the canonical zero divisor, else
runs the long-division loop over the dividend digits (most-significant
first) and strips trailing zeros from the quotient. -/
def div (a b : Digits) : Except String Digits :=
  if beq b (ofNat 0) then Except.error "Division by zero"
  else Except.ok (stripZeros (divmodLoop b a.reverse []).1)

/-- Operator `BigInt::operator%`: throws on the canonical zero divisor, else
runs the same loop and returns the final running remainder `current`. -/
def mod (a b : Digits) : Except String Digits :=
  if beq b (ofNat 0) then Except.error "Modulo by zero"
  else Except.ok (divmodLoop b a.reverse []).2

/-- Post-increment `BigInt::operator++(int)`: saves a copy, assigns
`*this + 1` to the receiver, returns the copy.  The pair is (returned value,
receiver after the call). -/
def postInc (x : Digits) : Digits × Digits := (x, add x (ofNat 1))

/-- Pre-increment `BigInt::operator++()`: assigns `*this + 1` to the
receiver and returns it.  The pair is (returned value, receiver after the
call). -/
def preInc (x : Digits) : Digits × Digits := (add x (ofNat 1), add x (ofNat 1))

/-- The loop of `BigInt::fact`: `for (BigInt i = 2; i <= *this; i = i + 1)
result = result * i`.  The first argument is an iteration budget: each call
consumes one unit, and `fact` passes a budget strictly larger than the
number of iterations the loop can make, so the budget never runs out. -/
def factLoop (self : Digits) : Nat → Digits → Digits → Digits
  | 0, _, result => result
  | fuel + 1, i, result =>
    if le i self then factLoop self fuel (add i (ofNat 1)) (mul result i)
    else result

/-- Member `BigInt::fact`: iterative factorial accumulation starting from
`result = 1`, `i = 2`. -/
def fact (self : Digits) : Digits :=
  factLoop self (value self + 1) (ofNat 2) (ofNat 1)

/-- Product of the integers from `lo` to `hi` inclusive (specification-side
helper used to state the factorial loop invariant). -/
def prodRange (lo hi : Nat) : Nat :=
  if lo ≤ hi then lo * prodRange (lo + 1) hi else 1
termination_by hi + 1 - lo

/-! ## Value and digit-validity of the basic constructions -/

theorem value_cons (d : Nat) (ds : Digits) : value (d :: ds) = d + 10 * value ds := rfl

theorem value_append (a b : Digits) :
    value (a ++ b) = value a + 10 ^ a.length * value b := by
  induction a with
  | nil => simp [value]
  | cons d ds ih =>
    show d + 10 * value (ds ++ b) = d + 10 * value ds + 10 ^ (ds.length + 1) * value b
    rw [ih, pow_succ]
    ring

theorem value_lt_pow {l : Digits} (h : DigitsValid l) : value l < 10 ^ l.length := by
  induction l with
  | nil => simp [value]
  | cons d ds ih =>
    have hd : d < 10 := h d (List.mem_cons_self d ds)
    have hds : value ds < 10 ^ ds.length := ih fun x hx => h x (List.mem_cons_of_mem d hx)
    simp only [value, List.length_cons, pow_succ]
    omega

theorem value_eq_zero {l : Digits} (h : DigitsValid l) (h0 : value l = 0) :
    ∀ d ∈ l, d = 0 := by
  induction l with
  | nil => simp
  | cons d ds ih =>
    simp only [value] at h0
    intro x hx
    rcases List.mem_cons.mp hx with rfl | hx
    · omega
    · exact ih (fun y hy => h y (List.mem_cons_of_mem d hy)) (by omega) x hx

/-- A digit-valid canonical vector of value zero is the empty vector. -/
theorem canonical_value_zero {l : Digits} (hv : DigitsValid l) (hc : Canonical l)
    (h0 : value l = 0) : l = [] := by
  rcases List.eq_nil_or_concat' l with rfl | ⟨xs, d, rfl⟩
  · rfl
  · exfalso
    have hd : d = 0 := value_eq_zero hv h0 d (List.mem_append_right _ (by simp))
    subst hd
    exact hc (by simp)

/-- A non-empty canonical digit-valid vector is at least `10 ^ (length - 1)`. -/
theorem pow_le_value {l : Digits} (hc : Canonical l)
    (hne : l ≠ []) : 10 ^ (l.length - 1) ≤ value l := by
  rcases List.eq_nil_or_concat' l with rfl | ⟨xs, d, rfl⟩
  · exact absurd rfl hne
  · have hd : d ≠ 0 := by
      intro h
      exact hc (by simp [h])
    rw [value_append]
    have hlen : (xs ++ [d]).length - 1 = xs.length := by simp
    rw [hlen]
    have h1 : 1 ≤ value [d] := by
      simp only [value]
      omega
    have h2 : 10 ^ xs.length * 1 ≤ 10 ^ xs.length * value [d] :=
      Nat.mul_le_mul_left _ h1
    omega

/-- Conversely, a digit-valid vector ending in a most-significant zero digit
is below `10 ^ (length - 1)`. -/
theorem value_lt_of_not_canonical {l : Digits} (hv : DigitsValid l)
    (hc : ¬ Canonical l) : value l < 10 ^ (l.length - 1) := by
  simp only [Canonical, not_not] at hc
  have hne : l ≠ [] := by
    intro h
    subst h
    simp at hc
  rcases List.eq_nil_or_concat' l with rfl | ⟨xs, d, rfl⟩
  · exact absurd rfl hne
  · have hd : d = 0 := by
      simpa using hc
    subst hd
    rw [value_append]
    simp only [value]
    have hlen : (xs ++ [0]).length - 1 = xs.length := by simp
    rw [hlen]
    have : value xs < 10 ^ xs.length :=
      value_lt_pow fun x hx => hv x (List.mem_append_left _ hx)
    omega

theorem value_ofNat (n : Nat) : value (ofNat n) = n := by
  induction n using Nat.strong_induction_on with
  | _ n ih =>
    rw [ofNat]
    by_cases h : n = 0
    · simp [h, value]
    · rw [if_neg h]
      have := ih (n / 10) (Nat.div_lt_self (by omega) (by omega))
      simp only [value, this]
      omega

theorem ofNat_valid (n : Nat) : DigitsValid (ofNat n) := by
  induction n using Nat.strong_induction_on with
  | _ n ih =>
    rw [ofNat]
    by_cases h : n = 0
    · simp [h, DigitsValid]
    · rw [if_neg h]
      intro d hd
      rcases List.mem_cons.mp hd with rfl | hd
      · omega
      · exact ih (n / 10) (Nat.div_lt_self (by omega) (by omega)) d hd

theorem ofNat_ne_nil {n : Nat} (h : n ≠ 0) : ofNat n ≠ [] := by
  rw [ofNat, if_neg h]
  simp

theorem ofNat_canonical (n : Nat) : Canonical (ofNat n) := by
  induction n using Nat.strong_induction_on with
  | _ n ih =>
    rw [ofNat]
    by_cases h : n = 0
    · simp [h, Canonical]
    · rw [if_neg h]
      by_cases h10 : n < 10
      · have hdiv : n / 10 = 0 := Nat.div_eq_of_lt h10
        rw [hdiv, ofNat, if_pos rfl]
        simp only [Canonical, List.getLast?_singleton, Ne, Option.some.injEq]
        omega
      · have hdiv : n / 10 ≠ 0 := by omega
        have hne := ofNat_ne_nil hdiv
        have hcan := ih (n / 10) (Nat.div_lt_self (by omega) (by omega))
        cases htail : ofNat (n / 10) with
        | nil => exact absurd htail hne
        | cons t ts =>
          simp only [Canonical, List.getLast?_cons_cons]
          rw [htail] at hcan
          exact hcan

/-! ## stripZeros -/

theorem value_all_zero {l : Digits} (h : ∀ d ∈ l, d = 0) : value l = 0 := by
  induction l with
  | nil => rfl
  | cons d ds ih =>
    simp only [value, h d (List.mem_cons_self d ds),
      ih fun x hx => h x (List.mem_cons_of_mem d hx)]

theorem head?_dropWhile_zero (l : List Nat) :
    ∀ d, (l.dropWhile fun x => x == 0).head? = some d → d ≠ 0 := by
  induction l with
  | nil => simp
  | cons a as ih =>
    intro d hd
    by_cases ha : a = 0
    · rw [List.dropWhile_cons_of_pos (by simp [ha])] at hd
      exact ih d hd
    · rw [List.dropWhile_cons_of_neg (by simp [ha])] at hd
      simp only [List.head?_cons, Option.some.injEq] at hd
      omega

theorem stripZeros_canonical (l : Digits) : Canonical (stripZeros l) := by
  unfold Canonical stripZeros
  rw [List.getLast?_reverse]
  intro h
  exact head?_dropWhile_zero l.reverse 0 h rfl

theorem stripZeros_value (l : Digits) : value (stripZeros l) = value l := by
  unfold stripZeros
  conv_rhs => rw [← l.reverse_reverse]
  conv_rhs => rw [← List.takeWhile_append_dropWhile (p := fun d : Nat => d == 0) (l := l.reverse)]
  rw [List.reverse_append, value_append]
  have hz : value (l.reverse.takeWhile fun d => d == 0).reverse = 0 := by
    apply value_all_zero
    intro d hd
    rw [List.mem_reverse] at hd
    have := List.mem_takeWhile_imp hd
    simpa using this
  rw [hz]
  omega

theorem stripZeros_valid {l : Digits} (h : DigitsValid l) : DigitsValid (stripZeros l) := by
  intro d hd
  apply h
  unfold stripZeros at hd
  rw [List.mem_reverse] at hd
  have := (List.dropWhile_sublist (fun x : Nat => x == 0) (l := l.reverse)).mem hd
  rwa [List.mem_reverse] at this

/-! ## Injectivity of `value` on canonical digit-valid vectors -/

theorem canonical_tail {d : Nat} {l : Digits} (h : Canonical (d :: l)) (hne : l ≠ []) :
    Canonical l := by
  cases l with
  | nil => exact absurd rfl hne
  | cons x xs => simpa only [Canonical, List.getLast?_cons_cons] using h

theorem value_inj {a b : Digits} (hav : DigitsValid a) (hbv : DigitsValid b)
    (hac : Canonical a) (hbc : Canonical b) (h : value a = value b) : a = b := by
  induction a generalizing b with
  | nil =>
    exact (canonical_value_zero hbv hbc (by simpa [value] using h.symm)).symm
  | cons a0 as ih =>
    cases b with
    | nil =>
      exact canonical_value_zero hav hac (by simpa [value] using h)
    | cons b0 bs =>
      simp only [value] at h
      have ha0 : a0 < 10 := hav a0 (List.mem_cons_self _ _)
      have hb0 : b0 < 10 := hbv b0 (List.mem_cons_self _ _)
      have hd : a0 = b0 := by omega
      have hv : value as = value bs := by omega
      subst hd
      have hastail : DigitsValid as := fun x hx => hav x (List.mem_cons_of_mem _ hx)
      have hbstail : DigitsValid bs := fun x hx => hbv x (List.mem_cons_of_mem _ hx)
      by_cases hasnil : as = []
      · subst hasnil
        by_cases hbsnil : bs = []
        · rw [hbsnil]
        · have := canonical_value_zero hbstail (canonical_tail hbc hbsnil)
            (by simpa [value] using hv.symm)
          exact absurd this hbsnil
      · by_cases hbsnil : bs = []
        · subst hbsnil
          have := canonical_value_zero hastail (canonical_tail hac hasnil)
            (by simpa [value] using hv)
          exact absurd this hasnil
        · rw [ih hastail hbstail (canonical_tail hac hasnil)
            (canonical_tail hbc hbsnil) hv]

theorem beq_iff {a b : Digits} : beq a b = true ↔ a = b := by
  unfold beq
  exact beq_iff_eq

/-! ## Addition -/

theorem carryDigits_value (c : Nat) : value (carryDigits c) = c := by
  induction c using Nat.strong_induction_on with
  | _ c ih =>
    cases c with
    | zero => simp [carryDigits, value]
    | succ k =>
      rw [carryDigits]
      simp only [value, ih ((k + 1) / 10) (Nat.div_lt_self (by omega) (by omega))]
      omega

theorem carryDigits_valid (c : Nat) : DigitsValid (carryDigits c) := by
  induction c using Nat.strong_induction_on with
  | _ c ih =>
    cases c with
    | zero => intro d hd; simp [carryDigits] at hd
    | succ k =>
      rw [carryDigits]
      intro d hd
      rcases List.mem_cons.mp hd with rfl | hd
      · omega
      · exact ih ((k + 1) / 10) (Nat.div_lt_self (by omega) (by omega)) d hd

theorem addAux_value (a : Digits) : ∀ (b : Digits) (c : Nat),
    value (addAux a b c) = value a + value b + c := by
  induction a with
  | nil =>
    intro b
    induction b with
    | nil => intro c; simp [addAux, carryDigits_value, value]
    | cons b0 bs ih =>
      intro c
      simp only [addAux, value, ih]
      omega
  | cons a0 as ih =>
    intro b c
    cases b with
    | nil =>
      simp only [addAux, value, ih [] ((c + a0) / 10)]
      omega
    | cons b0 bs =>
      simp only [addAux, value, ih bs ((c + a0 + b0) / 10)]
      omega

theorem add_value (a b : Digits) : value (add a b) = value a + value b := by
  simp [add, addAux_value]

theorem addAux_valid (a : Digits) : ∀ (b : Digits) (c : Nat), DigitsValid (addAux a b c) := by
  induction a with
  | nil =>
    intro b
    induction b with
    | nil => intro c; simp only [addAux]; exact carryDigits_valid c
    | cons b0 bs ih =>
      intro c
      simp only [addAux]
      intro d hd
      rcases List.mem_cons.mp hd with rfl | hd
      · omega
      · exact ih ((c + b0) / 10) d hd
  | cons a0 as ih =>
    intro b c
    cases b with
    | nil =>
      simp only [addAux]
      intro d hd
      rcases List.mem_cons.mp hd with rfl | hd
      · omega
      · exact ih [] ((c + a0) / 10) d hd
    | cons b0 bs =>
      simp only [addAux]
      intro d hd
      rcases List.mem_cons.mp hd with rfl | hd
      · omega
      · exact ih bs ((c + a0 + b0) / 10) d hd

theorem add_valid (a b : Digits) : DigitsValid (add a b) := addAux_valid a b 0

/-- Length analysis of the addition loop: the result is as long as the longer
operand, or one digit longer, and in the latter case the total is at least
`10 ^ (longer length)` (the extra digit came from a genuine carry). -/
theorem addAux_length {a : Digits} (hav : DigitsValid a) : ∀ {b : Digits} {c : Nat},
    DigitsValid b → c ≤ 1 →
    (addAux a b c).length = max a.length b.length ∨
      ((addAux a b c).length = max a.length b.length + 1 ∧
        10 ^ (max a.length b.length) ≤ value a + value b + c) := by
  induction a with
  | nil =>
    intro b
    induction b with
    | nil =>
      intro c _ hc
      match c, hc with
      | 0, _ => left; simp [addAux, carryDigits]
      | 1, _ =>
        right
        constructor
        · simp [addAux, carryDigits]
        · simp [value]
    | cons b0 bs ih =>
      intro c hbv hc
      have hb0 : b0 < 10 := hbv b0 (List.mem_cons_self _ _)
      have hbs : DigitsValid bs := fun x hx => hbv x (List.mem_cons_of_mem _ hx)
      have hc2 : (c + b0) / 10 ≤ 1 := by omega
      rcases ih hbs hc2 with h | ⟨h1, h2⟩
      · left
        simp only [addAux, List.length_cons, h]
        simp [value]
      · right
        constructor
        · simp only [addAux, List.length_cons, h1]
          simp
        · simp only [value, List.length_nil, List.length_cons, Nat.zero_max] at h2 ⊢
          rw [pow_succ]
          have h4 := Nat.mul_le_mul_left 10 h2
          have h3 : 10 * ((c + b0) / 10) ≤ c + b0 := by omega
          omega
  | cons a0 as ih =>
    intro b c hbv hc
    have ha0 : a0 < 10 := hav a0 (List.mem_cons_self _ _)
    have has : DigitsValid as := fun x hx => hav x (List.mem_cons_of_mem _ hx)
    have ihs := @ih has
    cases b with
    | nil =>
      have hc2 : (c + a0) / 10 ≤ 1 := by omega
      rcases ihs (b := []) (fun d hd => by simp at hd) hc2 with h | ⟨h1, h2⟩
      · left
        simp only [addAux, List.length_cons, h]
        simp
      · right
        constructor
        · simp only [addAux, List.length_cons, h1]
          simp
        · simp only [value, List.length_nil, List.length_cons, Nat.max_zero] at h2 ⊢
          rw [pow_succ]
          have h4 := Nat.mul_le_mul_left 10 h2
          have h3 : 10 * ((c + a0) / 10) ≤ c + a0 := by omega
          omega
    | cons b0 bs =>
      have hb0 : b0 < 10 := hbv b0 (List.mem_cons_self _ _)
      have hbs : DigitsValid bs := fun x hx => hbv x (List.mem_cons_of_mem _ hx)
      have hc2 : (c + a0 + b0) / 10 ≤ 1 := by omega
      rcases ihs hbs hc2 with h | ⟨h1, h2⟩
      · left
        simp only [addAux, List.length_cons, h]
        omega
      · right
        constructor
        · simp only [addAux, List.length_cons, h1]
          omega
        · simp only [value, List.length_cons] at h2 ⊢
          have hmax : max (as.length + 1) (bs.length + 1) = max as.length bs.length + 1 := by
            omega
          rw [hmax, pow_succ]
          have h4 := Nat.mul_le_mul_left 10 h2
          have h3 : 10 * ((c + a0 + b0) / 10) ≤ c + a0 + b0 := by omega
          omega

/-- Addition of canonical digit-valid vectors is canonical: the carry chain
never leaves a most-significant zero digit. -/
theorem add_canonical {a b : Digits} (hav : DigitsValid a) (hbv : DigitsValid b)
    (hac : Canonical a) (hbc : Canonical b) : Canonical (add a b) := by
  by_contra hnc
  have hval : value (add a b) = value a + value b := add_value a b
  have hlt := value_lt_of_not_canonical (add_valid a b) hnc
  rcases addAux_length hav hbv (Nat.zero_le 1) with h | ⟨h1, h2⟩
  · by_cases hmax : max a.length b.length = 0
    · have ha : a = [] := List.length_eq_zero.mp (by omega)
      have hb : b = [] := List.length_eq_zero.mp (by omega)
      subst ha
      subst hb
      have : add [] [] = [] := by simp [add, addAux, carryDigits]
      rw [this] at hnc
      exact hnc (by simp [Canonical])
    · rw [hval] at hlt
      have h : (add a b).length = max a.length b.length := h
      rw [h] at hlt
      rcases Nat.le_total a.length b.length with hab | hab
      · have hmb : max a.length b.length = b.length := Nat.max_eq_right hab
        rw [hmb] at hlt hmax
        have hbne : b ≠ [] := by
          intro hb
          subst hb
          exact hmax rfl
        have := pow_le_value hbc hbne
        omega
      · have hma : max a.length b.length = a.length := Nat.max_eq_left hab
        rw [hma] at hlt hmax
        have hane : a ≠ [] := by
          intro ha
          subst ha
          exact hmax rfl
        have := pow_le_value hac hane
        omega
  · rw [hval] at hlt
    have h1 : (add a b).length = max a.length b.length + 1 := h1
    rw [h1] at hlt
    simp only [Nat.add_sub_cancel] at hlt
    omega

/-! ## Subtraction -/

theorem subAux_spec {a : Digits} (hav : DigitsValid a) : ∀ {b : Digits} {borrow : Nat},
    DigitsValid b → borrow ≤ 1 → value b + borrow ≤ value a →
    value (subAux a b borrow) = value a - value b - borrow ∧
      DigitsValid (subAux a b borrow) := by
  induction a with
  | nil =>
    intro b borrow _ _ hle
    simp only [value] at hle
    constructor
    · simp only [subAux, value]
      omega
    · intro d hd
      simp [subAux] at hd
  | cons a0 as ih =>
    intro b borrow hbv hbor hle
    have ha0 : a0 < 10 := hav a0 (List.mem_cons_self _ _)
    have has : DigitsValid as := fun x hx => hav x (List.mem_cons_of_mem _ hx)
    have hb0 : b.headD 0 < 10 := by
      cases b with
      | nil => simp
      | cons b0 bs => exact hbv b0 (List.mem_cons_self _ _)
    have hbt : DigitsValid b.tail := by
      cases b with
      | nil => intro d hd; simp at hd
      | cons b0 bs => exact fun x hx => hbv x (List.mem_cons_of_mem _ hx)
    have hvb : value b = b.headD 0 + 10 * value b.tail := by
      cases b with
      | nil => simp [value]
      | cons b0 bs => simp [value]
    simp only [value] at hle
    rw [subAux]
    by_cases hcase : a0 < borrow + b.headD 0
    · rw [if_pos hcase]
      have hrec := ih has hbt (by omega : (1 : Nat) ≤ 1) (by omega)
      constructor
      · simp only [value, hrec.1]
        omega
      · intro d hd
        rcases List.mem_cons.mp hd with rfl | hd
        · omega
        · exact hrec.2 d hd
    · rw [if_neg hcase]
      have hrec := ih has hbt (by omega : (0 : Nat) ≤ 1) (by omega)
      constructor
      · simp only [value, hrec.1]
        omega
      · intro d hd
        rcases List.mem_cons.mp hd with rfl | hd
        · omega
        · exact hrec.2 d hd

/-- Operator `-` computes the numeric difference whenever the right
operand's value does not exceed the left's, and its result is canonical
and digit-valid. -/
theorem sub_spec {a b : Digits} (hav : DigitsValid a) (hbv : DigitsValid b)
    (hle : value b ≤ value a) :
    value (sub a b) = value a - value b ∧ DigitsValid (sub a b) ∧
      Canonical (sub a b) := by
  have h := subAux_spec hav hbv (Nat.zero_le 1) (by omega)
  refine ⟨?_, stripZeros_valid h.2, stripZeros_canonical _⟩
  unfold sub
  rw [stripZeros_value, h.1]
  omega

/-! ## Multiplication -/

theorem value_nil : value [] = 0 := rfl

theorem mulInner_spec (ai : Nat) : ∀ (buf b : Digits) (c : Nat),
    value buf + c + ai * value b < 10 ^ buf.length →
    (mulInner ai b buf c).length = buf.length ∧
      value (mulInner ai b buf c) = value buf + c + ai * value b := by
  intro buf
  induction buf with
  | nil =>
    intro b c hover
    rw [mulInner.eq_3]
    refine ⟨rfl, ?_⟩
    rw [value_nil] at hover ⊢
    rw [List.length_nil, pow_zero] at hover
    omega
  | cons r0 rs ih =>
    intro b c hover
    cases b with
    | nil =>
      by_cases hc : c = 0
      · subst hc
        rw [mulInner.eq_2, if_pos rfl]
        exact ⟨rfl, by rw [value_nil]; omega⟩
      · rw [mulInner.eq_2, if_neg hc]
        rw [value_cons, value_nil, List.length_cons, pow_succ] at hover
        have hrec := ih [] ((r0 + c) / 10) (by rw [value_nil]; omega)
        rw [value_nil] at hrec
        refine ⟨?_, ?_⟩
        · rw [List.length_cons, List.length_cons, hrec.1]
        · rw [value_cons, value_cons, value_nil, hrec.2]
          omega
    | cons b0 bs =>
      rw [mulInner.eq_1]
      have hexp : ai * value (b0 :: bs) = ai * b0 + 10 * (ai * value bs) := by
        rw [value_cons]
        ring
      have hover2 : value rs + (r0 + c + ai * b0) / 10 + ai * value bs < 10 ^ rs.length := by
        rw [value_cons, hexp] at hover
        rw [List.length_cons, pow_succ] at hover
        omega
      have hrec := ih bs ((r0 + c + ai * b0) / 10) hover2
      refine ⟨by rw [List.length_cons, List.length_cons, hrec.1], ?_⟩
      rw [value_cons, hrec.2, value_cons, hexp]
      omega

theorem mulInner_valid (ai : Nat) : ∀ (buf b : Digits) (c : Nat),
    DigitsValid buf → DigitsValid (mulInner ai b buf c) := by
  intro buf
  induction buf with
  | nil =>
    intro b c _
    rw [mulInner.eq_3]
    intro d hd
    simp at hd
  | cons r0 rs ih =>
    intro b c hbuf
    have hrs : DigitsValid rs := fun x hx => hbuf x (List.mem_cons_of_mem _ hx)
    cases b with
    | nil =>
      by_cases hc : c = 0
      · subst hc
        rw [mulInner.eq_2, if_pos rfl]
        exact hbuf
      · rw [mulInner.eq_2, if_neg hc]
        intro d hd
        rcases List.mem_cons.mp hd with rfl | hd
        · omega
        · exact ih [] ((r0 + c) / 10) hrs d hd
    | cons b0 bs =>
      rw [mulInner.eq_1]
      intro d hd
      rcases List.mem_cons.mp hd with rfl | hd
      · omega
      · exact ih bs ((r0 + c + ai * b0) / 10) hrs d hd

theorem mulOuter_spec : ∀ (a b buf : Digits),
    value buf + value a * value b < 10 ^ buf.length →
    (mulOuter a b buf).length = buf.length ∧
      value (mulOuter a b buf) = value buf + value a * value b := by
  intro a
  induction a with
  | nil =>
    intro b buf _
    rw [mulOuter.eq_1]
    refine ⟨rfl, ?_⟩
    rw [value_nil]
    omega
  | cons a0 as ih =>
    intro b buf hover
    have hsplit : value (a0 :: as) * value b = a0 * value b + 10 * (value as * value b) := by
      rw [value_cons]
      ring
    have hover1 : value buf + 0 + a0 * value b < 10 ^ buf.length := by
      rw [hsplit] at hover
      omega
    have hin := mulInner_spec a0 buf b 0 hover1
    rw [mulOuter.eq_2]
    cases hbuf : mulInner a0 b buf 0 with
    | nil =>
      rw [hbuf] at hin
      have hlen : buf.length = 0 := by
        rw [← hin.1]
        rfl
      rw [hlen, pow_zero] at hover
      refine ⟨by rw [hlen]; rfl, ?_⟩
      rw [value_nil]
      omega
    | cons r0 rs =>
      rw [hbuf] at hin
      have hlenbuf : rs.length + 1 = buf.length := by
        rw [← hin.1, List.length_cons]
      have hvalbuf : r0 + 10 * value rs = value buf + 0 + a0 * value b := by
        rw [← value_cons, hin.2]
      have hover2 : value rs + value as * value b < 10 ^ rs.length := by
        rw [hsplit, ← hlenbuf, pow_succ] at hover
        omega
      have hrec := ih b rs hover2
      refine ⟨?_, ?_⟩
      · rw [List.length_cons, hrec.1, hlenbuf]
      · rw [value_cons, hrec.2, hsplit]
        omega

theorem mulOuter_valid : ∀ (a b buf : Digits),
    DigitsValid buf → DigitsValid (mulOuter a b buf) := by
  intro a
  induction a with
  | nil =>
    intro b buf h
    rw [mulOuter.eq_1]
    exact h
  | cons a0 as ih =>
    intro b buf hbuf
    rw [mulOuter.eq_2]
    have hin := mulInner_valid a0 buf b 0 hbuf
    cases hbuf2 : mulInner a0 b buf 0 with
    | nil => intro d hd; simp at hd
    | cons r0 rs =>
      rw [hbuf2] at hin
      intro d hd
      rcases List.mem_cons.mp hd with rfl | hd
      · exact hin d (List.mem_cons_self _ _)
      · exact ih b rs (fun x hx => hin x (List.mem_cons_of_mem _ hx)) d hd

theorem replicate_value (n : Nat) : value (List.replicate n 0) = 0 :=
  value_all_zero fun d hd => (List.eq_of_mem_replicate hd)

/-- Operator `*` computes the numeric product of digit-valid operands. -/
theorem mul_spec {a b : Digits} (hav : DigitsValid a) (hbv : DigitsValid b) :
    value (mul a b) = value a * value b := by
  have hva := value_lt_pow hav
  have hvb := value_lt_pow hbv
  have hover : value (List.replicate (a.length + b.length) 0) + value a * value b <
      10 ^ (List.replicate (a.length + b.length) 0).length := by
    rw [replicate_value, List.length_replicate, pow_add]
    have h2 : 1 ≤ 10 ^ a.length := Nat.one_le_pow _ _ (by omega)
    have h3 : 1 ≤ 10 ^ b.length := Nat.one_le_pow _ _ (by omega)
    have h1 : value a * value b ≤ (10 ^ a.length - 1) * (10 ^ b.length - 1) :=
      Nat.mul_le_mul (by omega) (by omega)
    have h4 : (10 ^ a.length - 1) * (10 ^ b.length - 1) < 10 ^ a.length * 10 ^ b.length := by
      calc (10 ^ a.length - 1) * (10 ^ b.length - 1)
          ≤ (10 ^ a.length - 1) * 10 ^ b.length := Nat.mul_le_mul_left _ (by omega)
        _ < 10 ^ a.length * 10 ^ b.length :=
          (Nat.mul_lt_mul_right (by omega)).mpr (by omega)
    omega
  have h := mulOuter_spec a b (List.replicate (a.length + b.length) 0) hover
  unfold mul
  rw [stripZeros_value, h.2, replicate_value]
  omega

theorem mul_valid (a b : Digits) : DigitsValid (mul a b) :=
  stripZeros_valid (mulOuter_valid a b _ fun d hd => by
    rw [List.eq_of_mem_replicate hd]
    omega)

theorem mul_canonical (a b : Digits) : Canonical (mul a b) :=
  stripZeros_canonical _

/-! ## The comparison operators -/

theorem value_reverse_cons (d : Nat) (ds : List Nat) :
    value ((d :: ds).reverse) = d * 10 ^ ds.length + value ds.reverse := by
  rw [List.reverse_cons, value_append]
  simp only [value, List.length_reverse]
  ring

theorem leScan_spec : ∀ x y : List Nat, x.length = y.length →
    DigitsValid x → DigitsValid y →
    (leScan x y = true ↔ value x.reverse ≤ value y.reverse) := by
  intro x
  induction x with
  | nil =>
    intro y hlen _ _
    have hy : y = [] := List.length_eq_zero.mp hlen.symm
    subst hy
    simp [leScan]
  | cons x0 xs ih =>
    intro y hlen hxv hyv
    cases y with
    | nil => simp at hlen
    | cons y0 ys =>
      have hlen2 : xs.length = ys.length := by
        simpa using hlen
      have hx0 : x0 < 10 := hxv x0 (List.mem_cons_self _ _)
      have hy0 : y0 < 10 := hyv y0 (List.mem_cons_self _ _)
      have hxs : DigitsValid xs := fun d hd => hxv d (List.mem_cons_of_mem _ hd)
      have hys : DigitsValid ys := fun d hd => hyv d (List.mem_cons_of_mem _ hd)
      have hxsrev : DigitsValid xs.reverse := fun d hd => hxs d (List.mem_reverse.mp hd)
      have hysrev : DigitsValid ys.reverse := fun d hd => hys d (List.mem_reverse.mp hd)
      have hxs_lt : value xs.reverse < 10 ^ xs.length := by
        have := value_lt_pow hxsrev
        rwa [List.length_reverse] at this
      have hys_lt : value ys.reverse < 10 ^ xs.length := by
        have := value_lt_pow hysrev
        rw [List.length_reverse, ← hlen2] at this
        exact this
      rw [value_reverse_cons, value_reverse_cons, leScan, ← hlen2]
      by_cases hxy : x0 = y0
      · subst hxy
        rw [if_neg (by simp)]
        rw [ih ys hlen2 hxs hys]
        omega
      · rw [if_pos (by simpa using hxy)]
        simp only [decide_eq_true_eq]
        constructor
        · intro hlt
          have hmul : (x0 + 1) * 10 ^ xs.length ≤ y0 * 10 ^ xs.length :=
            Nat.mul_le_mul_right _ (by omega)
          have hexp : (x0 + 1) * 10 ^ xs.length = x0 * 10 ^ xs.length + 10 ^ xs.length := by
            ring
          omega
        · intro hle
          by_contra hnlt
          have hgt : y0 < x0 := by omega
          have hmul : (y0 + 1) * 10 ^ xs.length ≤ x0 * 10 ^ xs.length :=
            Nat.mul_le_mul_right _ (by omega)
          have hexp : (y0 + 1) * 10 ^ xs.length = y0 * 10 ^ xs.length + 10 ^ xs.length := by
            ring
          omega

/-- Operator `<=` decides value order.  The right operand may be either
canonical or the single-zero-digit vector `[0]` (the shape the running
remainder of long division can take). -/
theorem le_spec {a b : Digits} (hav : DigitsValid a) (hbv : DigitsValid b)
    (hac : Canonical a) (hbc : Canonical b ∨ b = [0]) :
    le a b = true ↔ value a ≤ value b := by
  unfold le
  by_cases hlen : a.length = b.length
  · rw [if_neg (not_not_intro hlen)]
    have := leScan_spec a.reverse b.reverse (by simp [hlen])
      (fun d hd => hav d (List.mem_reverse.mp hd))
      (fun d hd => hbv d (List.mem_reverse.mp hd))
    rwa [List.reverse_reverse, List.reverse_reverse] at this
  · rw [if_pos hlen]
    rcases Nat.lt_or_ge a.length b.length with hlt | hge
    · have hab : value a ≤ value b := by
        rcases hbc with hbc | hb0
        · have hbne : b ≠ [] := by
            intro hb
            subst hb
            simp at hlt
          have h1 := value_lt_pow hav
          have h2 := pow_le_value hbc hbne
          have h3 : 10 ^ a.length ≤ 10 ^ (b.length - 1) :=
            Nat.pow_le_pow_right (by omega) (by omega)
          omega
        · subst hb0
          have ha : a = [] := by
            have : a.length = 0 := by
              simp only [List.length_singleton] at hlt
              omega
            exact List.length_eq_zero.mp this
          subst ha
          simp [value]
      simp [hlt, hab]
    · have hlt2 : b.length < a.length := by omega
      have hba : value b < value a := by
        have hane : a ≠ [] := by
          intro ha
          subst ha
          simp at hlt2
        have h1 := value_lt_pow hbv
        have h2 := pow_le_value hac hane
        have h3 : 10 ^ b.length ≤ 10 ^ (a.length - 1) :=
          Nat.pow_le_pow_right (by omega) (by omega)
        omega
      constructor
      · intro h
        simp only [decide_eq_true_eq] at h
        omega
      · intro h
        omega

theorem le_of_value_lt {r b : Digits} (hrv : DigitsValid r) (hbv : DigitsValid b)
    (hrc : Canonical r) (h : value r < value b) :
    le r b = true ∧ le b r = false := by
  have hbne : b ≠ [] := by
    intro hb
    subst hb
    simp only [value_nil] at h
    omega
  unfold le
  by_cases hlen : r.length = b.length
  · rw [if_neg (not_not_intro hlen), if_neg (not_not_intro hlen.symm)]
    have h1 := leScan_spec r.reverse b.reverse (by simp [hlen])
      (fun d hd => hrv d (List.mem_reverse.mp hd))
      (fun d hd => hbv d (List.mem_reverse.mp hd))
    have h2 := leScan_spec b.reverse r.reverse (by simp [hlen])
      (fun d hd => hbv d (List.mem_reverse.mp hd))
      (fun d hd => hrv d (List.mem_reverse.mp hd))
    rw [List.reverse_reverse, List.reverse_reverse] at h1 h2
    constructor
    · exact h1.mpr (by omega)
    · cases hb : leScan b.reverse r.reverse with
      | false => rfl
      | true =>
        have := h2.mp hb
        omega
  · have hlb : 1 ≤ b.length := by
      cases b with
      | nil => exact absurd rfl hbne
      | cons b0 bs => simp
    have hrlt : r.length < b.length := by
      rcases List.eq_nil_or_concat' r with rfl | ⟨xs, d, rfl⟩
      · simpa using Nat.lt_of_lt_of_le (by omega) (le_refl b.length)
      · have h2 := pow_le_value hrc (by simp)
        have h3 := value_lt_pow hbv
        have h4 : 10 ^ ((xs ++ [d]).length - 1) < 10 ^ b.length := by omega
        have h5 : (xs ++ [d]).length - 1 < b.length :=
          (Nat.pow_lt_pow_iff_right (by omega)).mp h4
        omega
    constructor
    · rw [if_pos hlen]
      simpa using hrlt
    · rw [if_pos (fun hc => hlen hc.symm)]
      simp
      omega

/-- Invariant proof for the quotient-digit binary search: assuming the
comparison `other * BigInt(m) <= current` decides `value other * m ≤ value
current` on the searched range, the loop returns the largest digit in range
whose product does not exceed the running remainder. -/
theorem binSearch_spec (other current : Digits)
    (hP : ∀ m : Nat, m ≤ 10 →
      (le (mul other (ofNat m)) current = true ↔ value other * m ≤ value current)) :
    ∀ (n : Nat) (x l : Nat) (r : Int), (r + 1 - (l : Int)).toNat ≤ n →
      l ≤ x + 1 → x ≤ 10 → r ≤ 10 →
      value other * x ≤ value current →
      (∀ m : Nat, r < (m : Int) → m ≤ 10 → ¬ value other * m ≤ value current) →
      value other * binSearch other current x l r ≤ value current ∧
        binSearch other current x l r ≤ 10 ∧
        (∀ m : Nat, m ≤ 10 → value other * m ≤ value current →
          m ≤ binSearch other current x l r) := by
  intro n
  induction n with
  | zero =>
    intro x l r hn hxl hx10 hr10 hx hhigh
    rw [binSearch, if_neg (by omega)]
    refine ⟨hx, hx10, ?_⟩
    intro m hm10 hmle
    by_contra hgt
    exact hhigh m (by omega) hm10 hmle
  | succ n ih =>
    intro x l r hn hxl hx10 hr10 hx hhigh
    by_cases hlr : (l : Int) ≤ r
    · rw [binSearch, if_pos hlr]
      dsimp only
      have hm_le_r : (((l : Int) + r) / 2) ≤ r := by omega
      have hm_ge_l : (l : Int) ≤ ((l : Int) + r) / 2 := by omega
      set m := (((l : Int) + r) / 2).toNat with hm
      have hm10 : m ≤ 10 := by omega
      by_cases hle : le (mul other (ofNat m)) current = true
      · rw [if_pos hle]
        have hsem := (hP m hm10).mp hle
        exact ih m (m + 1) r (by omega) (by omega) hm10 hr10 hsem hhigh
      · rw [if_neg hle]
        have hsem : ¬ value other * m ≤ value current := fun hc => hle ((hP m hm10).mpr hc)
        apply ih x l ((m : Int) - 1) (by omega) hxl hx10 (by omega) hx
        intro k hk hk10 hkle
        apply hsem
        calc value other * m ≤ value other * k := Nat.mul_le_mul_left _ (by omega)
          _ ≤ value current := hkle
    · rw [binSearch, if_neg hlr]
      refine ⟨hx, hx10, ?_⟩
      intro m hm10 hmle
      by_contra hgt
      exact hhigh m (by omega) hm10 hmle

/-- Loop invariant of the shared long-division digit loop: processing the
remaining (most-significant-first) dividend digits `ds` starting from a
canonical running remainder smaller than the divisor yields quotient digits
(one per dividend digit, each a decimal digit) and a final remainder smaller
than the divisor, related by the long-division equation. -/
theorem divmodLoop_spec {b : Digits} (hbv : DigitsValid b) (hbpos : 1 ≤ value b) :
    ∀ (ds : List Nat) (current : Digits),
      (∀ d ∈ ds, d < 10) →
      DigitsValid current → Canonical current →
      value current < value b →
      (divmodLoop b ds current).1.length = ds.length ∧
      DigitsValid (divmodLoop b ds current).1 ∧
      value (divmodLoop b ds current).2 < value b ∧
      DigitsValid (divmodLoop b ds current).2 ∧
      Canonical (divmodLoop b ds current).2 ∧
      value current * 10 ^ ds.length + value ds.reverse =
        value b * value (divmodLoop b ds current).1 + value (divmodLoop b ds current).2 := by
  have hmulval : ∀ m : Nat, value (mul b (ofNat m)) = value b * m := fun m => by
    rw [mul_spec hbv (ofNat_valid m), value_ofNat]
  intro ds
  induction ds with
  | nil =>
    intro current hdsv hcv hcc hclt
    rw [divmodLoop]
    refine ⟨rfl, by intro d hd; simp at hd, hclt, hcv, hcc, ?_⟩
    simp [value_nil]
  | cons d ds ih =>
    intro current hdsv hcv hcc hclt
    have hd10 : d < 10 := hdsv d (List.mem_cons_self _ _)
    have hds10 : ∀ x ∈ ds, x < 10 := fun x hx => hdsv x (List.mem_cons_of_mem _ hx)
    have hcur1v : DigitsValid (d :: current) := by
      intro x hx
      rcases List.mem_cons.mp hx with rfl | hx
      · omega
      · exact hcv x hx
    have hcur1shape : Canonical (d :: current) ∨ (d :: current) = [0] := by
      cases hc : current with
      | nil =>
        by_cases hd0 : d = 0
        · right
          rw [hd0]
        · left
          simp only [Canonical, List.getLast?_singleton]
          intro hcon
          exact hd0 (by simpa using hcon)
      | cons c0 cs =>
        left
        rw [hc] at hcc
        simpa only [Canonical, List.getLast?_cons_cons] using hcc
    have hcur1val : value (d :: current) = d + 10 * value current := value_cons d current
    have hcur1lt : value (d :: current) < 10 * value b := by
      omega
    -- semantics of the searched comparison
    have hP : ∀ m : Nat, m ≤ 10 →
        (le (mul b (ofNat m)) (d :: current) = true ↔
          value b * m ≤ value (d :: current)) := by
      intro m _
      have := le_spec (mul_valid b (ofNat m)) hcur1v (mul_canonical b (ofNat m)) hcur1shape
      rwa [hmulval m] at this
    have hbs := binSearch_spec b (d :: current) hP 11 0 0 10 (by omega) (by omega)
      (by omega) (by omega) (by rw [Nat.mul_zero]; omega) (by intro m hm hm10; omega)
    set x := binSearch b (d :: current) 0 0 10 with hxdef
    have hx1 : value b * x ≤ value (d :: current) := hbs.1
    have hx10 : x ≤ 10 := hbs.2.1
    have hx9 : x ≤ 9 := by
      by_contra hgt
      have hx10e : x = 10 := by omega
      rw [hx10e] at hx1
      omega
    have hxstrict : value (d :: current) < value b * (x + 1) := by
      by_contra hns
      have := hbs.2.2 (x + 1) (by omega) (by omega)
      omega
    have hsub := sub_spec hcur1v (mul_valid b (ofNat x)) (by rw [hmulval]; exact hx1)
    rw [hmulval] at hsub
    have hexp1 : value b * (x + 1) = value b * x + value b := by ring
    have hcur2lt : value (sub (d :: current) (mul b (ofNat x))) < value b := by
      rw [hsub.1]
      omega
    have hrec := ih (sub (d :: current) (mul b (ofNat x))) hds10 hsub.2.1 hsub.2.2 hcur2lt
    rw [divmodLoop]
    dsimp only
    rw [← hxdef]
    refine ⟨?_, ?_, hrec.2.2.1, hrec.2.2.2.1, hrec.2.2.2.2.1, ?_⟩
    · rw [List.length_append, hrec.1]
      simp
    · intro y hy
      rcases List.mem_append.mp hy with hy | hy
      · exact hrec.2.1 y hy
      · have : y = x := by simpa using hy
        omega
    · -- the long-division equation
      have e1 := hrec.2.2.2.2.2
      have e2 : value (d :: current) =
          value b * x + value (sub (d :: current) (mul b (ofNat x))) := by
        rw [hsub.1]
        omega
      have hvx : value [x] = x := by
        simp [value]
      have hvd : value [d] = d := by
        simp [value]
      have g1 : value ((d :: ds).reverse) = value ds.reverse + 10 ^ ds.length * d := by
        rw [List.reverse_cons, value_append, List.length_reverse, hvd]
      have g2 : value ((divmodLoop b ds (sub (d :: current) (mul b (ofNat x)))).1 ++ [x]) =
          value (divmodLoop b ds (sub (d :: current) (mul b (ofNat x)))).1 +
            10 ^ ds.length * x := by
        rw [value_append, hrec.1, hvx]
      rw [g1, g2, List.length_cons]
      calc value current * 10 ^ (ds.length + 1) + (value ds.reverse + 10 ^ ds.length * d)
          = 10 ^ ds.length * (d + 10 * value current) + value ds.reverse := by
            rw [pow_succ]
            ring
        _ = 10 ^ ds.length * (value b * x +
              value (sub (d :: current) (mul b (ofNat x)))) + value ds.reverse := by
            rw [← hcur1val, e2]
        _ = (value (sub (d :: current) (mul b (ofNat x))) * 10 ^ ds.length +
              value ds.reverse) + value b * (10 ^ ds.length * x) := by ring
        _ = (value b * value (divmodLoop b ds (sub (d :: current) (mul b (ofNat x)))).1 +
              value (divmodLoop b ds (sub (d :: current) (mul b (ofNat x)))).2) +
              value b * (10 ^ ds.length * x) := by rw [e1]
        _ = value b * (value (divmodLoop b ds (sub (d :: current) (mul b (ofNat x)))).1 +
              10 ^ ds.length * x) +
              value (divmodLoop b ds (sub (d :: current) (mul b (ofNat x)))).2 := by ring

/-! ## Division and modulo -/

theorem ofNat_zero : ofNat 0 = [] := by
  rw [ofNat]
  simp

theorem beq_ofNat_zero {b : Digits} (hb : value b ≠ 0) : beq b (ofNat 0) = false := by
  cases h : beq b (ofNat 0) with
  | false => rfl
  | true =>
    have := beq_iff.mp h
    rw [ofNat_zero] at this
    subst this
    exact absurd rfl hb

theorem nil_canonical : Canonical [] := by
  simp [Canonical]

theorem nil_valid : DigitsValid [] := by
  intro d hd
  simp at hd

/-- The combined correctness of the long-division loop run from the top:
quotient and remainder of digit-valid operands with a value-non-zero divisor. -/
theorem divmod_main {a b : Digits} (hav : DigitsValid a) (hbv : DigitsValid b)
    (hb : value b ≠ 0) :
    div a b = Except.ok (stripZeros (divmodLoop b a.reverse []).1) ∧
      mod a b = Except.ok (divmodLoop b a.reverse []).2 ∧
      value a = value b * value (stripZeros (divmodLoop b a.reverse []).1) +
        value (divmodLoop b a.reverse []).2 ∧
      value (divmodLoop b a.reverse []).2 < value b ∧
      DigitsValid (stripZeros (divmodLoop b a.reverse []).1) ∧
      Canonical (stripZeros (divmodLoop b a.reverse []).1) ∧
      DigitsValid (divmodLoop b a.reverse []).2 ∧
      Canonical (divmodLoop b a.reverse []).2 := by
  have hbeq := beq_ofNat_zero hb
  have hloop := divmodLoop_spec hbv (by omega) a.reverse []
    (fun d hd => hav d (List.mem_reverse.mp hd)) nil_valid nil_canonical
    (by rw [value_nil]; omega)
  have heq := hloop.2.2.2.2.2
  rw [value_nil, Nat.zero_mul, Nat.zero_add, List.reverse_reverse] at heq
  refine ⟨?_, ?_, ?_, hloop.2.2.1, stripZeros_valid hloop.2.1,
    stripZeros_canonical _, hloop.2.2.2.1, hloop.2.2.2.2.1⟩
  · unfold div
    rw [hbeq]
    simp
  · unfold mod
    rw [hbeq]
    simp
  · rw [stripZeros_value]
    exact heq

/-- C1: for every digit-valid dividend `a` and every digit-valid divisor `b`
of non-zero numeric value, `a / b` and `a % b` succeed with a quotient `q`
and remainder `r` satisfying `value a = value b * value q + value r` and
`0 ≤ value r < value b`; moreover `r <= b` by the component's comparison,
strictly (the reverse comparison fails) when `value b ≠ 1` (it in fact fails
for `value b = 1` as well, since `value r < value b` is always strict). -/
theorem divmod_correct (a b : Digits) (hav : DigitsValid a) (hbv : DigitsValid b)
    (hb : value b ≠ 0) :
    ∃ q r : Digits, div a b = Except.ok q ∧ mod a b = Except.ok r ∧
      value a = value b * value q + value r ∧
      value r < value b ∧
      le r b = true ∧ (value b ≠ 1 → le b r = false) := by
  have h := divmod_main hav hbv hb
  refine ⟨stripZeros (divmodLoop b a.reverse []).1, (divmodLoop b a.reverse []).2,
    h.1, h.2.1, h.2.2.1, h.2.2.2.1, ?_, fun _ => ?_⟩
  · exact (le_of_value_lt h.2.2.2.2.2.2.1 hbv h.2.2.2.2.2.2.2 h.2.2.2.1).1
  · exact (le_of_value_lt h.2.2.2.2.2.2.1 hbv h.2.2.2.2.2.2.2 h.2.2.2.1).2

/-- Witness for C1 at dividend `[7]` (7) and divisor `[3]` (3). -/
theorem divmod_correct_witness :
    ∃ q r : Digits, div [7] [3] = Except.ok q ∧ mod [7] [3] = Except.ok r ∧
      value [7] = value [3] * value q + value r ∧
      value r < value [3] ∧
      le r [3] = true ∧ (value [3] ≠ 1 → le [3] r = false) :=
  divmod_correct [7] [3] (by decide) (by decide) (by decide)

/-- C2: division and modulo by the canonical zero value fail with the
division-by-zero errors and return no value; for every divisor of non-zero
numeric value both operations return a value. -/
theorem div_mod_by_zero (a : Digits) :
    div a (ofNat 0) = Except.error "Division by zero" ∧
      mod a (ofNat 0) = Except.error "Modulo by zero" ∧
      (∀ b : Digits, value b ≠ 0 →
        (∃ q, div a b = Except.ok q) ∧ (∃ r, mod a b = Except.ok r)) := by
  have hz : beq (ofNat 0) (ofNat 0) = true := beq_iff.mpr rfl
  refine ⟨?_, ?_, ?_⟩
  · unfold div
    rw [hz]
    simp
  · unfold mod
    rw [hz]
    simp
  · intro b hb
    have hbeq := beq_ofNat_zero hb
    constructor
    · exact ⟨stripZeros (divmodLoop b a.reverse []).1, by unfold div; rw [hbeq]; simp⟩
    · exact ⟨(divmodLoop b a.reverse []).2, by unfold mod; rw [hbeq]; simp⟩

/-- Witness for C2 at dividend `[5]` (5) and divisor `[2]` (2). -/
theorem div_mod_by_zero_witness :
    div [5] (ofNat 0) = Except.error "Division by zero" ∧
      (∃ q, div [5] [2] = Except.ok q) ∧ (∃ r, mod [5] [2] = Except.ok r) :=
  ⟨(div_mod_by_zero [5]).1, (div_mod_by_zero [5]).2.2 [2] (by decide)⟩

/-! ## Claim theorems for construction, addition, subtraction, comparison,
increment -/

/-- C3: for machine-representable non-negative integers whose sum and
product are also representable, constructing, adding and multiplying agrees
with machine arithmetic up to `==`. -/
theorem add_mul_agree_ofNat (a b : Nat) (hsum : a + b < 2 ^ 31) (hprod : a * b < 2 ^ 31) :
    beq (add (ofNat a) (ofNat b)) (ofNat (a + b)) = true ∧
      beq (mul (ofNat a) (ofNat b)) (ofNat (a * b)) = true := by
  constructor
  · apply beq_iff.mpr
    apply value_inj (add_valid _ _) (ofNat_valid _)
      (add_canonical (ofNat_valid a) (ofNat_valid b) (ofNat_canonical a) (ofNat_canonical b))
      (ofNat_canonical _)
    rw [add_value, value_ofNat, value_ofNat, value_ofNat]
  · apply beq_iff.mpr
    apply value_inj (mul_valid _ _) (ofNat_valid _) (mul_canonical _ _) (ofNat_canonical _)
    rw [mul_spec (ofNat_valid a) (ofNat_valid b), value_ofNat, value_ofNat, value_ofNat]

/-- Witness for C3 at `a = 2`, `b = 3`. -/
theorem add_mul_agree_ofNat_witness :
    beq (add (ofNat 2) (ofNat 3)) (ofNat (2 + 3)) = true ∧
      beq (mul (ofNat 2) (ofNat 3)) (ofNat (2 * 3)) = true :=
  add_mul_agree_ofNat 2 3 (by norm_num) (by norm_num)

/-- C5: subtraction of canonical digit-valid vectors with
`value b ≤ value a` returns a canonical vector denoting the difference. -/
theorem sub_correct (a b : Digits) (hav : DigitsValid a) (hbv : DigitsValid b)
    (hac : Canonical a) (hbc : Canonical b) (hle : value b ≤ value a) :
    value (sub a b) = value a - value b ∧ Canonical (sub a b) ∧
      DigitsValid (sub a b) := by
  have h := sub_spec hav hbv hle
  exact ⟨h.1, h.2.2, h.2.1⟩

/-- Witness for C5 at `a = [1, 1]` (11) and `b = [3]` (3). -/
theorem sub_correct_witness :
    value (sub [1, 1] [3]) = value [1, 1] - value [3] ∧ Canonical (sub [1, 1] [3]) ∧
      DigitsValid (sub [1, 1] [3]) :=
  sub_correct [1, 1] [3] (by decide) (by decide) (by decide) (by decide) (by decide)

/-- C6: the `<=` operator on canonical digit-valid vectors decides numeric
order: shorter vectors compare smaller, equal-length vectors are decided by
the first mismatching digit scanning from the most-significant end, and
fully-equal vectors compare `true`. -/
theorem le_correct (a b : Digits) (hav : DigitsValid a) (hbv : DigitsValid b)
    (hac : Canonical a) (hbc : Canonical b) :
    (le a b = true ↔ value a ≤ value b) ∧ le a a = true := by
  constructor
  · exact le_spec hav hbv hac (Or.inl hbc)
  · exact (le_spec hav hav hac (Or.inl hac)).mpr (le_refl _)

/-- Witness for C6 at `a = [2]` (2) and `b = [3]` (3). -/
theorem le_correct_witness :
    (le [2] [3] = true ↔ value [2] ≤ value [3]) ∧ le [2] [2] = true :=
  le_correct [2] [3] (by decide) (by decide) (by decide) (by decide)

/-- C7: post-increment returns the pre-update value and leaves the receiver
at the old value plus one; pre-increment returns, and leaves the receiver
at, the old value plus one; on initial value 9 the receiver ends at 10 in
both cases.  The pairs are (returned value, receiver after the call), the
only state either operator touches. -/
theorem inc_correct (x : Digits) :
    (postInc x).1 = x ∧ value (postInc x).2 = value x + 1 ∧
      (preInc x).1 = (preInc x).2 ∧ value (preInc x).2 = value x + 1 ∧
      beq (postInc (ofNat 9)).1 (ofNat 9) = true ∧
      beq (postInc (ofNat 9)).2 (ofNat 10) = true ∧
      beq (preInc (ofNat 9)).1 (ofNat 10) = true ∧
      beq (preInc (ofNat 9)).2 (ofNat 10) = true := by
  have hval : ∀ y : Digits, value (add y (ofNat 1)) = value y + 1 := fun y => by
    rw [add_value, value_ofNat]
  have hnine : add (ofNat 9) (ofNat 1) = ofNat 10 := by
    apply value_inj (add_valid _ _) (ofNat_valid _)
      (add_canonical (ofNat_valid 9) (ofNat_valid 1) (ofNat_canonical 9) (ofNat_canonical 1))
      (ofNat_canonical _)
    rw [hval, value_ofNat, value_ofNat]
  refine ⟨rfl, hval x, rfl, hval x, beq_iff.mpr rfl, ?_, ?_, ?_⟩
  · exact beq_iff.mpr (by unfold postInc; exact hnine)
  · exact beq_iff.mpr (by unfold preInc; exact hnine)
  · exact beq_iff.mpr (by unfold preInc; exact hnine)

/-- C4: every arithmetic result from canonical digit-valid operands is
canonical (no superfluous most-significant zero digit), and — because a
canonical digit-valid vector of value zero can only be the empty vector —
the zero result has the same representation whichever operation produced
it. -/
theorem arithmetic_canonical (a b : Digits) (hav : DigitsValid a) (hbv : DigitsValid b)
    (hac : Canonical a) (hbc : Canonical b) :
    Canonical (add a b) ∧
      (value b ≤ value a → Canonical (sub a b)) ∧
      Canonical (mul a b) ∧
      (value b ≠ 0 → ∀ q, div a b = Except.ok q → Canonical q) ∧
      (value b ≠ 0 → ∀ r, mod a b = Except.ok r → Canonical r) ∧
      Canonical (postInc a).2 ∧
      Canonical (preInc a).1 ∧
      (∀ l : Digits, DigitsValid l → Canonical l → value l = 0 → l = []) := by
  refine ⟨add_canonical hav hbv hac hbc,
    fun hle => (sub_spec hav hbv hle).2.2,
    mul_canonical a b, ?_, ?_, ?_, ?_,
    fun l hlv hlc hl0 => canonical_value_zero hlv hlc hl0⟩
  · intro hb q hq
    have h := divmod_main hav hbv hb
    rw [h.1] at hq
    have : stripZeros (divmodLoop b a.reverse []).1 = q := by
      simpa using hq
    rw [← this]
    exact h.2.2.2.2.2.1
  · intro hb r hr
    have h := divmod_main hav hbv hb
    rw [h.2.1] at hr
    have : (divmodLoop b a.reverse []).2 = r := by
      simpa using hr
    rw [← this]
    exact h.2.2.2.2.2.2.2
  · exact add_canonical hav (ofNat_valid 1) hac (ofNat_canonical 1)
  · exact add_canonical hav (ofNat_valid 1) hac (ofNat_canonical 1)

/-- Witness for C4 at `a = [2]` (2) and `b = [1]` (1). -/
theorem arithmetic_canonical_witness :
    Canonical (add [2] [1]) ∧
      (value [1] ≤ value [2] → Canonical (sub [2] [1])) ∧
      Canonical (mul [2] [1]) ∧
      (value [1] ≠ 0 → ∀ q, div [2] [1] = Except.ok q → Canonical q) ∧
      (value [1] ≠ 0 → ∀ r, mod [2] [1] = Except.ok r → Canonical r) ∧
      Canonical (postInc [2]).2 ∧
      Canonical (preInc [2]).1 ∧
      (∀ l : Digits, DigitsValid l → Canonical l → value l = 0 → l = []) :=
  arithmetic_canonical [2] [1] (by decide) (by decide) (by decide) (by decide)

/-- C8: constructing a `BigInt` from the decimal-string rendering of any
digit-valid value compares equal (`==`) to the original value. -/
theorem print_roundtrip (v : Digits) (hv : DigitsValid v) :
    beq (ofString (print v)) v = true := by
  apply beq_iff.mpr
  unfold ofString print
  rw [List.map_map]
  have hmap : (v.reverse.map ((fun c => c.toNat - 48) ∘ fun d => Char.ofNat (48 + d))) =
      v.reverse.map id := by
    apply List.map_congr_left
    intro d hd
    have hd10 : d < 10 := hv d (List.mem_reverse.mp hd)
    show (Char.ofNat (48 + d)).toNat - 48 = d
    interval_cases d <;> decide
  rw [hmap, List.map_id, List.reverse_reverse]

/-- Witness for C8 at the value `[3, 2, 1]` (123). -/
theorem print_roundtrip_witness : beq (ofString (print [3, 2, 1])) [3, 2, 1] = true :=
  print_roundtrip [3, 2, 1] (by decide)

/-- C10: the zero built from the machine integer 0 is the empty vector, the
zero built from the string "0" is the single zero digit, and because `==`
compares the digit vectors element-wise the two are not equal. -/
theorem zero_constructions_differ :
    ofNat 0 = [] ∧ ofString [Char.ofNat 48] = [0] ∧
      beq (ofNat 0) (ofString [Char.ofNat 48]) = false := by
  refine ⟨ofNat_zero, by decide, ?_⟩
  rw [ofNat_zero]
  decide

/-! ## Factorial -/

theorem prodRange_of_le {lo hi : Nat} (h : lo ≤ hi) :
    prodRange lo hi = lo * prodRange (lo + 1) hi := by
  rw [prodRange, if_pos h]

theorem prodRange_of_gt {lo hi : Nat} (h : hi < lo) : prodRange lo hi = 1 := by
  rw [prodRange, if_neg (by omega)]

theorem prodRange_succ_top : ∀ {lo hi : Nat}, lo ≤ hi + 1 →
    prodRange lo (hi + 1) = prodRange lo hi * (hi + 1) := by
  have main : ∀ (n lo hi : Nat), hi + 1 - lo ≤ n → lo ≤ hi + 1 →
      prodRange lo (hi + 1) = prodRange lo hi * (hi + 1) := by
    intro n
    induction n with
    | zero =>
      intro lo hi hn hle
      have hlo : lo = hi + 1 := by omega
      subst hlo
      rw [prodRange_of_le (le_refl _), prodRange_of_gt (by omega),
        prodRange_of_gt (by omega)]
      ring
    | succ n ih =>
      intro lo hi hn hle
      by_cases hcase : lo = hi + 1
      · subst hcase
        rw [prodRange_of_le (le_refl _), prodRange_of_gt (by omega),
          prodRange_of_gt (by omega)]
        ring
      · have hlo : lo ≤ hi := by omega
        rw [prodRange_of_le (by omega : lo ≤ hi + 1), prodRange_of_le hlo,
          ih lo.succ hi (by omega) (by omega)]
        ring
  intro lo hi h
  exact main (hi + 1 - lo) lo hi (le_refl _) h

theorem prodRange_two_eq_factorial (n : Nat) : prodRange 2 n = Nat.factorial n := by
  induction n with
  | zero => rw [prodRange_of_gt (show 0 < 2 by omega)]; rfl
  | succ n ih =>
    by_cases h2 : 2 ≤ n + 1
    · rw [prodRange_succ_top h2, ih, Nat.factorial_succ]
      ring
    · have hn : n = 0 := by omega
      subst hn
      rw [prodRange_of_gt (show 1 < 2 by omega)]
      rfl

/-- Loop invariant of `BigInt::fact`: with a canonical digit-valid receiver,
a canonical digit-valid loop counter of positive value and enough budget for
the remaining iterations, the loop multiplies the accumulator by every
integer from the counter's value up to the receiver's value. -/
theorem factLoop_spec {self : Digits} (hsv : DigitsValid self) (hsc : Canonical self) :
    ∀ (fuel : Nat) (i result : Digits),
      DigitsValid i → Canonical i → DigitsValid result →
      1 ≤ value i →
      value self + 2 ≤ value i + fuel →
      value (factLoop self fuel i result) =
        value result * prodRange (value i) (value self) ∧
      DigitsValid (factLoop self fuel i result) ∧
      (Canonical result → Canonical (factLoop self fuel i result)) := by
  intro fuel
  induction fuel with
  | zero =>
    intro i result hiv hic hrv hi1 hbudget
    rw [factLoop]
    rw [prodRange_of_gt (by omega)]
    exact ⟨by ring, hrv, fun h => h⟩
  | succ fuel ih =>
    intro i result hiv hic hrv hi1 hbudget
    rw [factLoop]
    by_cases hle : le i self = true
    · rw [if_pos hle]
      have hvle : value i ≤ value self := (le_spec hiv hsv hic (Or.inl hsc)).mp hle
      have hrec := ih (add i (ofNat 1)) (mul result i)
        (add_valid _ _)
        (add_canonical hiv (ofNat_valid 1) hic (ofNat_canonical 1))
        (mul_valid _ _)
        (by rw [add_value, value_ofNat]; omega)
        (by rw [add_value, value_ofNat]; omega)
      rw [add_value, value_ofNat] at hrec
      refine ⟨?_, hrec.2.1, fun _ => hrec.2.2 (mul_canonical _ _)⟩
      rw [hrec.1, mul_spec hrv hiv, prodRange_of_le hvle]
      ring
    · rw [if_neg hle]
      have hvgt : ¬ value i ≤ value self := fun hc =>
        hle ((le_spec hiv hsv hic (Or.inl hsc)).mpr hc)
      rw [prodRange_of_gt (by omega)]
      exact ⟨by ring, hrv, fun h => h⟩

theorem fact_value {self : Digits} (hsv : DigitsValid self) (hsc : Canonical self) :
    value (fact self) = Nat.factorial (value self) ∧
      DigitsValid (fact self) ∧ Canonical (fact self) := by
  unfold fact
  have h := factLoop_spec hsv hsc (value self + 1) (ofNat 2) (ofNat 1)
    (ofNat_valid 2) (ofNat_canonical 2) (ofNat_valid 1)
    (by rw [value_ofNat]; omega) (by rw [value_ofNat]; omega)
  rw [value_ofNat, value_ofNat, prodRange_two_eq_factorial, Nat.one_mul] at h
  exact ⟨h.1, h.2.1, h.2.2 (ofNat_canonical 1)⟩

/-- C9: `fact` of a canonical digit-valid receiver denotes the factorial of
the receiver's value, and in particular `fact` of the values 0 and 1 equals
`BigInt(1)` and `fact` of the value 10 equals `BigInt(3628800)` under the
component's `==`. -/
theorem fact_correct (self : Digits) (hsv : DigitsValid self) (hsc : Canonical self) :
    value (fact self) = Nat.factorial (value self) ∧
      beq (fact (ofNat 0)) (ofNat 1) = true ∧
      beq (fact (ofNat 1)) (ofNat 1) = true ∧
      beq (fact (ofNat 10)) (ofNat 3628800) = true := by
  have hinst : ∀ n k : Nat, Nat.factorial n = k →
      beq (fact (ofNat n)) (ofNat k) = true := by
    intro n k hk
    have h := fact_value (ofNat_valid n) (ofNat_canonical n)
    apply beq_iff.mpr
    apply value_inj h.2.1 (ofNat_valid k) h.2.2 (ofNat_canonical k)
    rw [h.1, value_ofNat, value_ofNat, hk]
  exact ⟨(fact_value hsv hsc).1, hinst 0 1 rfl, hinst 1 1 rfl,
    hinst 10 3628800 (by norm_num [Nat.factorial])⟩

/-- Witness for C9 at receiver `[3]` (3). -/
theorem fact_correct_witness :
    value (fact [3]) = Nat.factorial (value [3]) ∧
      beq (fact (ofNat 0)) (ofNat 1) = true ∧
      beq (fact (ofNat 1)) (ofNat 1) = true ∧
      beq (fact (ofNat 10)) (ofNat 3628800) = true :=
  fact_correct [3] (by decide) (by decide)
